import Mathlib

set_option maxHeartbeats 1000000

/-!
Shallow embedding of the puzzle core of the bevy-taquin-3d repository:
`src/tile.rs` (tile values and coordinates), `src/taquin.rs` (the current
`Taquin` grid resource with its solvability test, shuffle and move systems)
and the historical snapshot `src/main.rs` (its `is_solvable` and
`setup_tiles`).  Machine integers (`i8`, `usize`) are modelled as `Int` and
`Nat`; all theorems restrict grids to the regime `size ≤ 11` in which every
intermediate `i8` quantity of the source (values up to `size * size ≤ 121`)
is representable, so the unbounded model is exact.  Engine-level
nondeterminism (Bevy query iteration order, `rand` draws) is exposed as
explicit parameters, and the source's unbounded `loop`s become fuel
recursion returning `Option`.
-/

/-- `TileValue(pub i8)` from tile.rs; the derived ordering compares the
wrapped integer, so the wrapper is modelled as the integer itself. -/
abbrev TileValue := Int

/-- `TileValue::is_empty` from tile.rs: a tile is the empty slot iff it holds
the sentinel `taquin_size * taquin_size`. -/
def TileValue.is_empty (v : TileValue) (taquin_size : Int) : Bool :=
  v == taquin_size * taquin_size

/-- `TileCoordinates { i, j }` from tile.rs (`i` = column, `j` = row). -/
structure TileCoordinates where
  i : Int
  j : Int
deriving DecidableEq, Repr

/-- `TileCoordinates::new` from tile.rs. -/
def TileCoordinates.new (i j : Int) : TileCoordinates := ⟨i, j⟩

/-- `impl Add<(i8, i8)> for TileCoordinates` from tile.rs. -/
def TileCoordinates.add (c : TileCoordinates) (other : Int × Int) : TileCoordinates :=
  ⟨c.i + other.1, c.j + other.2⟩

/-- `TileCoordinates::get_neighbours` from tile.rs. -/
def TileCoordinates.get_neighbours (c : TileCoordinates) : List TileCoordinates :=
  [c.add (1, 0), c.add (0, 1), c.add (-1, 0), c.add (0, -1)]

/-- `TileCoordinates::is_neighbour_of` from tile.rs. -/
def TileCoordinates.is_neighbour_of (c other : TileCoordinates) : Bool :=
  (c.get_neighbours).contains other

/-- The `Taquin` resource from taquin.rs. -/
structure Taquin where
  size : Int
  tiles_nb : Nat
  tiles : List (List TileValue)
  is_shuffled : Bool
deriving DecidableEq, Repr

/-- `Taquin::new` from taquin.rs: records the size and `size * size`, leaves
the tile matrix empty, performs no validation. -/
def Taquin.new (size : Int) : Taquin :=
  ⟨size, (size * size).toNat, [], false⟩

/-- Read of `self.tiles[j][i]` (out-of-range reads, which panic in the
source, default to `0`; every theorem carries in-range hypotheses). -/
def at2d (g : List (List TileValue)) (j i : Nat) : TileValue :=
  (g.getD j []).getD i 0

/-- Write of `self.tiles[j][i] = v`. -/
def set2d (g : List (List TileValue)) (j i : Nat) (v : TileValue) : List (List TileValue) :=
  g.set j ((g.getD j []).set i v)

/-- The key codes the `Taquin` systems of taquin.rs distinguish: the four
directions, and the other keys used by the program (which all fall into the
wildcard arm of `get_next_selection_coordinates`). -/
inductive KeyCode where
  | Left
  | Right
  | Up
  | Down
  | Space
  | R
  | T
deriving DecidableEq, Repr

/-- Body of the `KeyCode::Left` loop of `Taquin::get_next_selection_coordinates`
(taquin.rs lines 66-69): decrement the column, wrapping `-1` to `size - 1`. -/
def stepLeft (size : Int) (c : TileCoordinates) : TileCoordinates :=
  ⟨if c.i - 1 < 0 then size - 1 else c.i - 1, c.j⟩

/-- Body of the `KeyCode::Right` loop (taquin.rs lines 77-80). -/
def stepRight (size : Int) (c : TileCoordinates) : TileCoordinates :=
  ⟨if size ≤ c.i + 1 then 0 else c.i + 1, c.j⟩

/-- Body of the `KeyCode::Up` loop (taquin.rs lines 88-91). -/
def stepUp (size : Int) (c : TileCoordinates) : TileCoordinates :=
  ⟨c.i, if c.j - 1 < 0 then size - 1 else c.j - 1⟩

/-- Body of the `KeyCode::Down` loop (taquin.rs lines 99-102). -/
def stepDown (size : Int) (c : TileCoordinates) : TileCoordinates :=
  ⟨c.i, if size ≤ c.j + 1 then 0 else c.j + 1⟩

/-- The source's unbounded `loop { step; if not empty return }`, as fuel
recursion (`none` models the loop still running when fuel is exhausted). -/
def selection_loop (t : Taquin) (step : TileCoordinates → TileCoordinates) :
    TileCoordinates → Nat → Option TileCoordinates
  | _, 0 => none
  | c, n + 1 =>
    let c1 := step c
    if TileValue.is_empty (at2d t.tiles c1.j.toNat c1.i.toNat) t.size then
      selection_loop t step c1 n
    else
      some c1

/-- `Taquin::get_next_selection_coordinates` from taquin.rs lines 61-110. -/
def Taquin.get_next_selection_coordinates (t : Taquin) (current_coordinates : TileCoordinates)
    (direction : KeyCode) (fuel : Nat) : Option TileCoordinates :=
  match direction with
  | KeyCode.Left => selection_loop t (stepLeft t.size) current_coordinates fuel
  | KeyCode.Right => selection_loop t (stepRight t.size) current_coordinates fuel
  | KeyCode.Up => selection_loop t (stepUp t.size) current_coordinates fuel
  | KeyCode.Down => selection_loop t (stepDown t.size) current_coordinates fuel
  | _ => some current_coordinates

/-- `Taquin::get_inversion_count` from taquin.rs lines 112-126: over the
row-major flattening, count pairs `i < j` whose two entries both differ from
the sentinel `tiles_nb` and are out of order. -/
def Taquin.get_inversion_count (t : Taquin) : Nat :=
  let flat_tiles := t.tiles.flatten
  (((List.range (t.tiles_nb - 1)).map (fun i =>
    ((List.range' (i + 1) (t.tiles_nb - (i + 1))).filter (fun j =>
      flat_tiles.getD i 0 != (t.tiles_nb : Int) &&
      flat_tiles.getD j 0 != (t.tiles_nb : Int) &&
      decide (flat_tiles.getD j 0 < flat_tiles.getD i 0))).length))).sum

/-- Inner `row.iter().enumerate().for_each` of
`Taquin::get_empty_tile_coordinates`, unrolled as recursion on the row: a
cell holding the sentinel overwrites the accumulated `(ret_i, ret_j)`. -/
def scanRow (sentinel : TileValue) (j : Nat) : Nat → List TileValue → Nat × Nat → Nat × Nat
  | _, [], acc => acc
  | i, v :: rest, acc =>
    scanRow sentinel j (i + 1) rest (if v = sentinel then (i, j) else acc)

/-- Outer `self.tiles.iter().enumerate().for_each` of
`Taquin::get_empty_tile_coordinates`. -/
def scanRows (sentinel : TileValue) : Nat → List (List TileValue) → Nat × Nat → Nat × Nat
  | _, [], acc => acc
  | j, row :: rest, acc => scanRows sentinel (j + 1) rest (scanRow sentinel j 0 row acc)

/-- `Taquin::get_empty_tile_coordinates` from taquin.rs lines 128-143: linear
scan keeping the last cell equal to `tiles_nb`, starting from `(0, 0)`. -/
def Taquin.get_empty_tile_coordinates (t : Taquin) : TileCoordinates :=
  let p := scanRows (t.tiles_nb : Int) 0 t.tiles (0, 0)
  TileCoordinates.new (p.1 : Int) (p.2 : Int)

/-- `Taquin::is_solvable` from taquin.rs lines 145-158 (`x & 1` on the
source's machine integers agrees with `x % 2` here). -/
def Taquin.is_solvable (t : Taquin) : Bool :=
  let inversion_count := t.get_inversion_count
  let empty_tile_coordinates := t.get_empty_tile_coordinates
  if t.size % 2 = 1 then
    decide (inversion_count % 2 = 0)
  else if empty_tile_coordinates.j % 2 = 1 then
    decide (inversion_count % 2 = 0)
  else
    decide (inversion_count % 2 = 1)

/-- `Taquin::is_solved` from taquin.rs lines 160-169: no descending adjacent
pair in the row-major flattening (`windows(2)` becomes `zip` with the tail;
the source's `a.get(1).is_some()` guard is vacuously true on 2-windows). -/
def Taquin.is_solved (t : Taquin) : Bool :=
  let flat := t.tiles.flatten
  ((flat.zip flat.tail).filter (fun a => decide (a.2 < a.1))).length == 0

/-- `Taquin::swap_tiles` from taquin.rs lines 171-175. -/
def Taquin.swap_tiles (t : Taquin) (a b : TileCoordinates) : Taquin :=
  let temp_tile := at2d t.tiles a.j.toNat a.i.toNat
  let tiles1 := set2d t.tiles a.j.toNat a.i.toNat (at2d t.tiles b.j.toNat b.i.toNat)
  let tiles2 := set2d tiles1 b.j.toNat b.i.toNat temp_tile
  { t with tiles := tiles2 }

/-- The state the `move_selected_tile` system of taquin.rs acts on, after the
engine has resolved its two single-entity queries: the grid resource plus the
coordinates of the unique selected tile and the unique empty tile. -/
structure MoveState where
  taquin : Taquin
  selected : TileCoordinates
  empty : TileCoordinates
deriving DecidableEq, Repr

/-- Outcome of one `move_selected_tile` invocation: the new state and which
events (`TileMoved`, `TaquinSolved`) were sent. -/
structure MoveResult where
  state : MoveState
  tile_moved : Bool
  solved_emitted : Bool
deriving DecidableEq, Repr

/-- The `move_selected_tile` system from taquin.rs lines 205-235: if the
selected tile is a neighbour of the empty tile, the two coordinate labels are
`mem::swap`ped and then `swap_tiles` exchanges the two grid cells, sending
`TileMoved`; in both cases `TaquinSolved` is sent iff the grid is solved
afterwards (the `is_solved` check sits outside the adjacency branch). -/
def move_selected_tile (s : MoveState) : MoveResult :=
  if TileCoordinates.is_neighbour_of s.selected s.empty then
    let new_empty := s.selected
    let new_selected := s.empty
    let t := Taquin.swap_tiles s.taquin new_selected new_empty
    ⟨⟨t, new_selected, new_empty⟩, true, t.is_solved⟩
  else
    ⟨s, false, s.taquin.is_solved⟩

/-- `do_shuffle` from taquin.rs lines 256-273.  Each loop iteration draws two
entity indices and, when the draw is valid, swaps the two entities' grid
cells; the engine's nondeterministic entity enumeration is exposed as the
list of cell-coordinate pairs the draws resolve to (an iteration whose draw
is rejected — `n1 == n2` or an out-of-range second `nth` — contributes no
swap).  Returns the mutated grid and the acceptance test
`!is_solved && is_solvable`. -/
def do_shuffle (t : Taquin) (draws : List (TileCoordinates × TileCoordinates)) :
    Taquin × Bool :=
  let t1 := draws.foldl (fun acc p => acc.swap_tiles p.1 p.2) t
  (t1, !t1.is_solved && t1.is_solvable)

/-- The `shuffle` system's retry loop from taquin.rs lines 247-253: redo
`do_shuffle` (from the already-mutated grid) until it accepts, then set
`is_shuffled` and send `TaquinShuffled`.  One batch of random draws per
attempt; `none` models the loop still running when the supply of batches is
exhausted. -/
def shuffle : Taquin → List (List (TileCoordinates × TileCoordinates)) → Option Taquin
  | _, [] => none
  | t, batch :: rest =>
    let r := do_shuffle t batch
    if r.2 then some { r.1 with is_shuffled := true }
    else shuffle r.1 rest

/-- The historical `is_solvable` from main.rs lines 484-501 (its `Taquin`
struct and `get_inversion_count` are field-for-field the ones of taquin.rs;
the blank position is a parameter there). -/
def MainRs.is_solvable (taquin : Taquin) (empty_tile_position : TileCoordinates) : Bool :=
  let inversion_count := taquin.get_inversion_count
  if taquin.size % 2 = 1 then
    decide (empty_tile_position.j % 2 = 0)
  else if empty_tile_position.j % 2 = 1 then
    decide (inversion_count % 2 = 0)
  else
    decide (inversion_count % 2 = 1)

/-- The grid built by the `setup_tiles` system of main.rs lines 301-337: cell
`(i, j)` holds `j * size + i + 1`, except the last cell which holds the
sentinel `size * size`. -/
def setup_tiles_grid (size : Int) : List (List TileValue) :=
  (List.range size.toNat).map (fun j =>
    (List.range size.toNat).map (fun i =>
      if i = size.toNat - 1 ∧ j = size.toNat - 1 then size * size
      else (j : Int) * size + (i : Int) + 1))

/-- The ascending sequence `1, 2, …, n` (statement vocabulary). -/
def ascending (n : Nat) : List TileValue :=
  (List.range n).map (fun k : Nat => (k : Int) + 1)

/-- Statement vocabulary for C4, following the spec's words: one step in the
given direction with toroidal wraparound on the corresponding axis. -/
def toroidalStep (size : Int) (direction : KeyCode) (c : TileCoordinates) : TileCoordinates :=
  match direction with
  | KeyCode.Left => ⟨(c.i - 1 + size) % size, c.j⟩
  | KeyCode.Right => ⟨(c.i + 1) % size, c.j⟩
  | KeyCode.Up => ⟨c.i, (c.j - 1 + size) % size⟩
  | KeyCode.Down => ⟨c.i, (c.j + 1) % size⟩
  | _ => c

/-- Well-formedness of a `Taquin` value: a positive size within the regime
where every `i8` quantity of the source is exactly representable
(`size ≤ 11`, so `size * size ≤ 121 ≤ 127`), consistent `tiles_nb`, and an
actual `size × size` matrix. -/
def WF (t : Taquin) : Prop :=
  0 < t.size ∧ t.size ≤ 11 ∧
  t.tiles_nb = t.size.toNat * t.size.toNat ∧
  t.tiles.length = t.size.toNat ∧
  ∀ row ∈ t.tiles, row.length = t.size.toNat

/-- The coordinate addresses a cell of the grid. -/
def InRange (t : Taquin) (c : TileCoordinates) : Prop :=
  0 ≤ c.i ∧ c.i < t.size ∧ 0 ≤ c.j ∧ c.j < t.size

/-- The permutation invariant of the spec's data model: the row-major
flattening is a permutation of `1, …, N²` (the sentinel `N²` standing for
the blank). -/
def PermInv (t : Taquin) : Prop :=
  t.tiles.flatten.Perm (ascending t.tiles_nb)

/-- The invariant as phrased in C8: the sentinel appears exactly once and all
values are pairwise distinct. -/
def SentinelInv (t : Taquin) : Prop :=
  t.tiles.flatten.count ((t.tiles_nb : Int)) = 1 ∧ t.tiles.flatten.Nodup

instance (t : Taquin) : Decidable (PermInv t) :=
  inferInstanceAs (Decidable (t.tiles.flatten.Perm (ascending t.tiles_nb)))

instance (t : Taquin) : Decidable (SentinelInv t) :=
  inferInstanceAs (Decidable (_ ∧ _))

instance (t : Taquin) : Decidable (WF t) :=
  inferInstanceAs (Decidable (_ ∧ _))

instance (t : Taquin) (c : TileCoordinates) : Decidable (InRange t c) :=
  inferInstanceAs (Decidable (_ ∧ _))

/-- C10: on any key code other than the four directions,
`get_next_selection_coordinates` returns its input coordinate unchanged. -/
theorem selection_identity_on_non_direction (t : Taquin) (c : TileCoordinates)
    (k : KeyCode) (fuel : Nat)
    (h1 : k ≠ KeyCode.Left) (h2 : k ≠ KeyCode.Right)
    (h3 : k ≠ KeyCode.Up) (h4 : k ≠ KeyCode.Down) :
    t.get_next_selection_coordinates c k fuel = some c := by
  cases k <;> simp_all [Taquin.get_next_selection_coordinates]

/-- Witness for C10 at a concrete grid and the Space key. -/
theorem selection_identity_on_non_direction_witness :
    (Taquin.new 2).get_next_selection_coordinates ⟨0, 0⟩ KeyCode.Space 5 = some ⟨0, 0⟩ :=
  selection_identity_on_non_direction (Taquin.new 2) ⟨0, 0⟩ KeyCode.Space 5
    (by decide) (by decide) (by decide) (by decide)

theorem getD_set_self (l : List TileValue) (n : Nat) (v d : TileValue)
    (h : n < l.length) : (l.set n v).getD n d = v := by
  rw [List.getD_eq_getElem _ _ (by simpa using h)]
  exact List.getElem_set_self _

theorem getD_set_ne (l : List TileValue) (n m : Nat) (v d : TileValue)
    (h : n ≠ m) : (l.set n v).getD m d = l.getD m d := by
  by_cases hm : m < l.length
  · rw [List.getD_eq_getElem _ _ (by simpa using hm), List.getD_eq_getElem _ _ hm]
    exact List.getElem_set_ne h _
  · rw [List.getD_eq_default _ _ (by simpa using Nat.le_of_not_lt hm),
      List.getD_eq_default _ _ (Nat.le_of_not_lt hm)]

theorem set_getD_self (l : List TileValue) (n : Nat) (h : n < l.length) :
    l.set n (l.getD n 0) = l := by
  apply List.ext_getElem (by simp)
  intro m h1 h2
  rcases eq_or_ne n m with rfl | hne
  · rw [List.getElem_set_self, List.getD_eq_getElem _ _ h2]
  · exact List.getElem_set_ne hne _

theorem getD_set_self_rows (g : List (List TileValue)) (n : Nat) (v : List TileValue)
    (h : n < g.length) : (g.set n v).getD n [] = v := by
  rw [List.getD_eq_getElem _ _ (by simpa using h)]
  exact List.getElem_set_self _

theorem getD_set_ne_rows (g : List (List TileValue)) (n m : Nat) (v : List TileValue)
    (h : n ≠ m) : (g.set n v).getD m [] = g.getD m [] := by
  by_cases hm : m < g.length
  · rw [List.getD_eq_getElem _ _ (by simpa using hm), List.getD_eq_getElem _ _ hm]
    exact List.getElem_set_ne h _
  · rw [List.getD_eq_default _ _ (by simpa using Nat.le_of_not_lt hm),
      List.getD_eq_default _ _ (Nat.le_of_not_lt hm)]

theorem length_set2d (g : List (List TileValue)) (j i : Nat) (v : TileValue) :
    (set2d g j i v).length = g.length := by
  simp [set2d]

theorem set2d_out_of_range (g : List (List TileValue)) (j i : Nat) (v : TileValue)
    (hj : g.length ≤ j) : set2d g j i v = g := by
  unfold set2d
  exact List.set_eq_of_length_le hj

theorem rows_set2d (g : List (List TileValue)) (N j i : Nat) (v : TileValue)
    (hrows : ∀ row ∈ g, row.length = N) :
    ∀ row ∈ set2d g j i v, row.length = N := by
  intro row hrow
  by_cases hj : j < g.length
  · rcases List.mem_or_eq_of_mem_set hrow with hmem | rfl
    · exact hrows row hmem
    · rw [List.length_set]
      exact hrows _ (by rw [List.getD_eq_getElem _ _ hj]; exact List.getElem_mem hj)
  · rw [set2d_out_of_range _ _ _ _ (Nat.le_of_not_lt hj)] at hrow
    exact hrows row hrow

theorem at2d_set2d_self (g : List (List TileValue)) (j i : Nat) (v : TileValue)
    (hj : j < g.length) (hi : i < (g.getD j []).length) :
    at2d (set2d g j i v) j i = v := by
  unfold at2d set2d
  rw [getD_set_self_rows _ _ _ hj]
  exact getD_set_self _ _ _ _ hi

theorem at2d_set2d_ne (g : List (List TileValue)) (j i j2 i2 : Nat) (v : TileValue)
    (h : ¬(j2 = j ∧ i2 = i)) :
    at2d (set2d g j i v) j2 i2 = at2d g j2 i2 := by
  rcases eq_or_ne j2 j with rfl | hne
  · have hi2 : i2 ≠ i := fun e => h ⟨rfl, e⟩
    by_cases hj : j2 < g.length
    · unfold at2d set2d
      rw [getD_set_self_rows _ _ _ hj]
      exact getD_set_ne _ _ _ _ _ (Ne.symm hi2)
    · rw [set2d_out_of_range _ _ _ _ (Nat.le_of_not_lt hj)]
  · unfold at2d set2d
    rw [getD_set_ne_rows _ _ _ _ (Ne.symm hne)]

theorem flatten_getD (N : Nat) (g : List (List TileValue))
    (hrows : ∀ row ∈ g, row.length = N) :
    ∀ j i, j < g.length → i < N → g.flatten.getD (j * N + i) 0 = at2d g j i := by
  induction g with
  | nil => intro j i hj _; simp at hj
  | cons row rest ih =>
    intro j i hj hi
    have hrow : row.length = N := hrows row (by simp)
    cases j with
    | zero =>
      rw [List.flatten_cons]
      simp only [Nat.zero_mul, Nat.zero_add]
      rw [List.getD_append _ _ _ _ (by omega)]
      simp [at2d, List.getD_cons_zero]
    | succ j2 =>
      rw [List.flatten_cons]
      rw [List.getD_append_right _ _ _ _ (by rw [hrow]; calc
        N ≤ j2 * N + N := by omega
        _ = (j2 + 1) * N := by ring
        _ ≤ (j2 + 1) * N + i := by omega)]
      have harith : (j2 + 1) * N + i - row.length = j2 * N + i := by
        rw [hrow]; have : (j2 + 1) * N = j2 * N + N := by ring
        omega
      rw [harith]
      rw [ih (fun r hr => hrows r (by simp [hr])) j2 i (by simpa using hj) hi]
      simp [at2d, List.getD_cons_succ]

theorem flatten_set2d (N : Nat) (g : List (List TileValue))
    (hrows : ∀ row ∈ g, row.length = N) :
    ∀ j i v, j < g.length → i < N →
      (set2d g j i v).flatten = g.flatten.set (j * N + i) v := by
  induction g with
  | nil => intro j i v hj _; simp at hj
  | cons row rest ih =>
    intro j i v hj hi
    have hrow : row.length = N := hrows row (by simp)
    cases j with
    | zero =>
      unfold set2d
      simp only [List.getD_cons_zero, List.set_cons_zero, List.flatten_cons,
        Nat.zero_mul, Nat.zero_add]
      rw [List.set_append]
      simp [hrow, hi]
    | succ j2 =>
      unfold set2d
      simp only [List.getD_cons_succ, List.set_cons_succ, List.flatten_cons]
      have hidx : ¬((j2 + 1) * N + i < row.length) := by
        rw [hrow]
        have : (j2 + 1) * N = j2 * N + N := by ring
        omega
      rw [List.set_append]
      simp only [hidx, if_false]
      have harith : (j2 + 1) * N + i - row.length = j2 * N + i := by
        rw [hrow]; have : (j2 + 1) * N = j2 * N + N := by ring
        omega
      rw [harith]
      have := ih (fun r hr => hrows r (by simp [hr])) j2 i v (by simpa using hj) hi
      unfold set2d at this
      rw [this]

theorem flatten_length_of_rows (N : Nat) (g : List (List TileValue))
    (hrows : ∀ row ∈ g, row.length = N) :
    g.flatten.length = g.length * N := by
  induction g with
  | nil => simp
  | cons row rest ih =>
    rw [List.flatten_cons, List.length_append, hrows row (by simp),
      ih (fun r hr => hrows r (by simp [hr]))]
    simp [List.length_cons]
    ring

theorem two_le_count_of_getD (v : TileValue) :
    ∀ (l : List TileValue) (i j : Nat), i < j → j < l.length →
      l.getD i 0 = v → l.getD j 0 = v → 2 ≤ List.count v l := by
  intro l
  induction l with
  | nil => intro i j _ hj; simp at hj
  | cons a tail ih =>
    intro i j hij hj hi2 hj2
    cases j with
    | zero => omega
    | succ j2 =>
      rw [List.getD_cons_succ] at hj2
      have hj2len : j2 < tail.length := by simpa using hj
      cases i with
      | zero =>
        rw [List.getD_cons_zero] at hi2
        have hmem : v ∈ tail := by
          rw [← hj2, List.getD_eq_getElem _ _ hj2len]
          exact List.getElem_mem hj2len
        have hpos : 0 < List.count v tail := List.count_pos_iff.mpr hmem
        rw [hi2, List.count_cons_self]
        omega
      | succ i2 =>
        rw [List.getD_cons_succ] at hi2
        have := ih i2 j2 (by omega) hj2len hi2 hj2
        rw [List.count_cons]
        omega

theorem at2d_unique (t : Taquin) (hwf : WF t) (s : TileValue)
    (hcnt : t.tiles.flatten.count s = 1) :
    ∀ j1 i1 j2 i2, j1 < t.size.toNat → i1 < t.size.toNat →
      j2 < t.size.toNat → i2 < t.size.toNat →
      at2d t.tiles j1 i1 = s → at2d t.tiles j2 i2 = s → j1 = j2 ∧ i1 = i2 := by
  obtain ⟨hpos, _, hnb, hlen, hrows⟩ := hwf
  intro j1 i1 j2 i2 hj1 hi1 hj2 hi2 h1 h2
  set N := t.size.toNat with hN
  have hflen : t.tiles.flatten.length = N * N := by
    rw [flatten_length_of_rows N t.tiles hrows, hlen]
  have hg1 : t.tiles.flatten.getD (j1 * N + i1) 0 = s := by
    rw [flatten_getD N t.tiles hrows j1 i1 (by omega) hi1]; exact h1
  have hg2 : t.tiles.flatten.getD (j2 * N + i2) 0 = s := by
    rw [flatten_getD N t.tiles hrows j2 i2 (by omega) hi2]; exact h2
  have hb1 : j1 * N + i1 < N * N := by
    calc j1 * N + i1 < j1 * N + N := by omega
    _ = (j1 + 1) * N := by ring
    _ ≤ N * N := Nat.mul_le_mul_right N (by omega)
  have hb2 : j2 * N + i2 < N * N := by
    calc j2 * N + i2 < j2 * N + N := by omega
    _ = (j2 + 1) * N := by ring
    _ ≤ N * N := Nat.mul_le_mul_right N (by omega)
  have hidx : j1 * N + i1 = j2 * N + i2 := by
    by_contra hne
    rcases Nat.lt_or_ge (j1 * N + i1) (j2 * N + i2) with hlt | hge
    · have := two_le_count_of_getD s t.tiles.flatten _ _ hlt (by omega) hg1 hg2
      omega
    · have hlt2 : j2 * N + i2 < j1 * N + i1 := by omega
      have := two_le_count_of_getD s t.tiles.flatten _ _ hlt2 (by omega) hg2 hg1
      omega
  constructor
  · by_contra hne
    rcases Nat.lt_or_ge j1 j2 with hlt | hge
    · have : j1 * N + i1 < j2 * N + i2 := by
        calc j1 * N + i1 < j1 * N + N := by omega
        _ = (j1 + 1) * N := by ring
        _ ≤ j2 * N := Nat.mul_le_mul_right N (by omega)
        _ ≤ j2 * N + i2 := by omega
      omega
    · have hlt : j2 < j1 := by omega
      have : j2 * N + i2 < j1 * N + i1 := by
        calc j2 * N + i2 < j2 * N + N := by omega
        _ = (j2 + 1) * N := by ring
        _ ≤ j1 * N := Nat.mul_le_mul_right N (by omega)
        _ ≤ j1 * N + i1 := by omega
      omega
  · have hj12 : j1 = j2 := by
      by_contra hne
      rcases Nat.lt_or_ge j1 j2 with hlt | hge
      · have : j1 * N + i1 < j2 * N + i2 := by
          calc j1 * N + i1 < j1 * N + N := by omega
          _ = (j1 + 1) * N := by ring
          _ ≤ j2 * N := Nat.mul_le_mul_right N (by omega)
          _ ≤ j2 * N + i2 := by omega
        omega
      · have hlt : j2 < j1 := by omega
        have : j2 * N + i2 < j1 * N + i1 := by
          calc j2 * N + i2 < j2 * N + N := by omega
          _ = (j2 + 1) * N := by ring
          _ ≤ j1 * N := Nat.mul_le_mul_right N (by omega)
          _ ≤ j1 * N + i1 := by omega
        omega
    subst hj12
    omega

theorem swap1d_perm (l : List TileValue) (i j : Nat)
    (hi : i < l.length) (hj : j < l.length) :
    ((l.set i (l.getD j 0)).set j (l.getD i 0)).Perm l := by
  rcases eq_or_ne i j with rfl | hne
  · rw [List.set_set, set_getD_self _ _ hi]
  · rw [List.perm_iff_count]
    intro a
    have hj' : j < (l.set i (l.getD j 0)).length := by simpa using hj
    rw [List.count_set _ _ _ _ hj', List.count_set _ _ _ _ hi]
    have hgi : l.getD i 0 = l[i] := List.getD_eq_getElem _ _ hi
    have hgj : l.getD j 0 = l[j] := List.getD_eq_getElem _ _ hj
    have hset : (l.set i (l.getD j 0))[j] = l[j] := List.getElem_set_ne hne _
    rw [hset, hgi, hgj]
    have hmi : l[i] ∈ l := List.getElem_mem hi
    have hmj : l[j] ∈ l := List.getElem_mem hj
    by_cases e1 : l[i] = a
    · have hc1 : 0 < List.count a l := List.count_pos_iff.mpr (e1 ▸ hmi)
      by_cases e2 : l[j] = a <;> simp [e1, e2] <;> omega
    · by_cases e2 : l[j] = a <;> simp [e1, e2] <;> omega

theorem flat_index_lt (N j i : Nat) (hj : j < N) (hi : i < N) : j * N + i < N * N := by
  calc j * N + i < j * N + N := by omega
  _ = (j + 1) * N := by ring
  _ ≤ N * N := Nat.mul_le_mul_right N (by omega)

theorem flat_index_inj (N j1 i1 j2 i2 : Nat) (hi1 : i1 < N) (hi2 : i2 < N)
    (h : j1 * N + i1 = j2 * N + i2) : j1 = j2 ∧ i1 = i2 := by
  have hj : j1 = j2 := by
    by_contra hne
    rcases Nat.lt_or_ge j1 j2 with hlt | hge
    · have : j1 * N + i1 < j2 * N + i2 := by
        calc j1 * N + i1 < j1 * N + N := by omega
        _ = (j1 + 1) * N := by ring
        _ ≤ j2 * N := Nat.mul_le_mul_right N (by omega)
        _ ≤ j2 * N + i2 := by omega
      omega
    · have hlt : j2 < j1 := by omega
      have : j2 * N + i2 < j1 * N + i1 := by
        calc j2 * N + i2 < j2 * N + N := by omega
        _ = (j2 + 1) * N := by ring
        _ ≤ j1 * N := Nat.mul_le_mul_right N (by omega)
        _ ≤ j1 * N + i1 := by omega
      omega
  subst hj
  omega

theorem row_length_of_rows (g : List (List TileValue)) (N j : Nat)
    (hrows : ∀ row ∈ g, row.length = N) (hj : j < g.length) :
    (g.getD j []).length = N := by
  rw [List.getD_eq_getElem _ _ hj]
  exact hrows _ (List.getElem_mem hj)

theorem inRange_toNat (t : Taquin) (c : TileCoordinates) (hc : InRange t c) :
    c.j.toNat < t.size.toNat ∧ c.i.toNat < t.size.toNat := by
  obtain ⟨h1, h2, h3, h4⟩ := hc
  omega

theorem at2d_ne_of_nodup (t : Taquin) (hwf : WF t) (hnd : t.tiles.flatten.Nodup)
    (j1 i1 j2 i2 : Nat) (hj1 : j1 < t.size.toNat) (hi1 : i1 < t.size.toNat)
    (hj2 : j2 < t.size.toNat) (hi2 : i2 < t.size.toNat)
    (hne : ¬(j1 = j2 ∧ i1 = i2)) :
    at2d t.tiles j1 i1 ≠ at2d t.tiles j2 i2 := by
  obtain ⟨hpos, _, hnb, hlen, hrows⟩ := hwf
  set N := t.size.toNat with hN
  have hflen : t.tiles.flatten.length = N * N := by
    rw [flatten_length_of_rows N t.tiles hrows, hlen]
  intro he
  have e1 : t.tiles.flatten.getD (j1 * N + i1) 0 = at2d t.tiles j1 i1 :=
    flatten_getD N t.tiles hrows j1 i1 (by omega) hi1
  have e2 : t.tiles.flatten.getD (j2 * N + i2) 0 = at2d t.tiles j2 i2 :=
    flatten_getD N t.tiles hrows j2 i2 (by omega) hi2
  have hb1 : j1 * N + i1 < t.tiles.flatten.length := by
    rw [hflen]; exact flat_index_lt N j1 i1 hj1 hi1
  have hb2 : j2 * N + i2 < t.tiles.flatten.length := by
    rw [hflen]; exact flat_index_lt N j2 i2 hj2 hi2
  rw [List.getD_eq_getElem _ _ hb1] at e1
  rw [List.getD_eq_getElem _ _ hb2] at e2
  have : j1 * N + i1 = j2 * N + i2 := by
    have hinj := @List.Nodup.getElem_inj_iff _ _ hnd (j1 * N + i1) hb1 (j2 * N + i2) hb2
    rw [← hinj, e1, e2, he]
  exact hne (flat_index_inj N j1 i1 j2 i2 hi1 hi2 this)

theorem swap_tiles_fields (t : Taquin) (a b : TileCoordinates) :
    (t.swap_tiles a b).size = t.size ∧ (t.swap_tiles a b).tiles_nb = t.tiles_nb ∧
    (t.swap_tiles a b).is_shuffled = t.is_shuffled := by
  constructor
  · rfl
  constructor
  · rfl
  · rfl

theorem swap_tiles_cells (t : Taquin) (hwf : WF t) (a b : TileCoordinates)
    (ha : InRange t a) (hb : InRange t b) :
    at2d (t.swap_tiles a b).tiles a.j.toNat a.i.toNat = at2d t.tiles b.j.toNat b.i.toNat ∧
    at2d (t.swap_tiles a b).tiles b.j.toNat b.i.toNat = at2d t.tiles a.j.toNat a.i.toNat ∧
    (∀ j i, ¬(j = a.j.toNat ∧ i = a.i.toNat) → ¬(j = b.j.toNat ∧ i = b.i.toNat) →
      at2d (t.swap_tiles a b).tiles j i = at2d t.tiles j i) := by
  obtain ⟨hpos, _, hnb, hlen, hrows⟩ := hwf
  obtain ⟨haj, hai⟩ := inRange_toNat t a ha
  obtain ⟨hbj, hbi⟩ := inRange_toNat t b hb
  set N := t.size.toNat with hN
  have hlen1 : (set2d t.tiles a.j.toNat a.i.toNat (at2d t.tiles b.j.toNat b.i.toNat)).length =
      t.tiles.length := length_set2d _ _ _ _
  have hrows1 : ∀ row ∈ set2d t.tiles a.j.toNat a.i.toNat (at2d t.tiles b.j.toNat b.i.toNat),
      row.length = N := rows_set2d _ N _ _ _ hrows
  refine ⟨?_, ?_, ?_⟩
  · by_cases hab : b.j.toNat = a.j.toNat ∧ b.i.toNat = a.i.toNat
    · obtain ⟨e1, e2⟩ := hab
      show at2d (set2d _ b.j.toNat b.i.toNat _) a.j.toNat a.i.toNat = _
      rw [← e1, ← e2]
      rw [at2d_set2d_self _ _ _ _ (by rw [length_set2d, hlen]; omega)
        (by rw [row_length_of_rows _ N _ (rows_set2d _ N _ _ _ hrows)
            (by rw [length_set2d, hlen]; omega)]; omega)]
    · show at2d (set2d _ b.j.toNat b.i.toNat _) a.j.toNat a.i.toNat = _
      rw [at2d_set2d_ne _ _ _ _ _ _ (by tauto)]
      rw [at2d_set2d_self _ _ _ _ (by omega) (by
        rw [row_length_of_rows _ N _ hrows (by omega)]; omega)]
  · show at2d (set2d _ b.j.toNat b.i.toNat _) b.j.toNat b.i.toNat = _
    rw [at2d_set2d_self _ _ _ _ (by omega) (by
      rw [row_length_of_rows _ N _ hrows1 (by omega)]; omega)]
  · intro j i hnea hneb
    show at2d (set2d _ b.j.toNat b.i.toNat _) j i = _
    rw [at2d_set2d_ne _ _ _ _ _ _ hneb, at2d_set2d_ne _ _ _ _ _ _ hnea]

theorem swap_tiles_flatten_perm (t : Taquin) (hwf : WF t) (a b : TileCoordinates)
    (ha : InRange t a) (hb : InRange t b) :
    (t.swap_tiles a b).tiles.flatten.Perm t.tiles.flatten := by
  obtain ⟨hpos, _, hnb, hlen, hrows⟩ := hwf
  obtain ⟨haj, hai⟩ := inRange_toNat t a ha
  obtain ⟨hbj, hbi⟩ := inRange_toNat t b hb
  set N := t.size.toNat with hN
  have hflen : t.tiles.flatten.length = N * N := by
    rw [flatten_length_of_rows N t.tiles hrows, hlen]
  have hrows1 : ∀ row ∈ set2d t.tiles a.j.toNat a.i.toNat (at2d t.tiles b.j.toNat b.i.toNat),
      row.length = N := rows_set2d _ N _ _ _ hrows
  have hlen1 : (set2d t.tiles a.j.toNat a.i.toNat (at2d t.tiles b.j.toNat b.i.toNat)).length =
      t.tiles.length := length_set2d _ _ _ _
  have step1 : (set2d t.tiles a.j.toNat a.i.toNat (at2d t.tiles b.j.toNat b.i.toNat)).flatten =
      t.tiles.flatten.set (a.j.toNat * N + a.i.toNat) (at2d t.tiles b.j.toNat b.i.toNat) :=
    flatten_set2d N t.tiles hrows _ _ _ (by omega) (by omega)
  have step2 : (t.swap_tiles a b).tiles.flatten =
      ((set2d t.tiles a.j.toNat a.i.toNat (at2d t.tiles b.j.toNat b.i.toNat)).flatten).set
        (b.j.toNat * N + b.i.toNat) (at2d t.tiles a.j.toNat a.i.toNat) := by
    show (set2d _ b.j.toNat b.i.toNat _).flatten = _
    exact flatten_set2d N _ hrows1 _ _ _ (by omega) (by omega)
  rw [step2, step1]
  have ea : at2d t.tiles a.j.toNat a.i.toNat =
      t.tiles.flatten.getD (a.j.toNat * N + a.i.toNat) 0 :=
    (flatten_getD N t.tiles hrows _ _ (by omega) (by omega)).symm
  have eb : at2d t.tiles b.j.toNat b.i.toNat =
      t.tiles.flatten.getD (b.j.toNat * N + b.i.toNat) 0 :=
    (flatten_getD N t.tiles hrows _ _ (by omega) (by omega)).symm
  rw [ea, eb]
  exact swap1d_perm t.tiles.flatten _ _
    (by rw [hflen]; exact flat_index_lt N _ _ (by omega) (by omega))
    (by rw [hflen]; exact flat_index_lt N _ _ (by omega) (by omega))

theorem coord_eq_of_toNat (a b : TileCoordinates) (ha1 : 0 ≤ a.i) (ha2 : 0 ≤ a.j)
    (hb1 : 0 ≤ b.i) (hb2 : 0 ≤ b.j) (h1 : a.i.toNat = b.i.toNat)
    (h2 : a.j.toNat = b.j.toNat) : a = b := by
  have e1 : a.i = b.i := by omega
  have e2 : a.j = b.j := by omega
  cases a with | mk x y =>
  cases b with | mk x2 y2 =>
  simp only [TileCoordinates.mk.injEq]
  exact ⟨e1, e2⟩

theorem is_neighbour_iff_manhattan (c o : TileCoordinates) :
    TileCoordinates.is_neighbour_of c o = true ↔
      (c.i - o.i).natAbs + (c.j - o.j).natAbs = 1 := by
  cases c with | mk ci cj =>
  cases o with | mk oi oj =>
  simp only [TileCoordinates.is_neighbour_of, TileCoordinates.get_neighbours,
    TileCoordinates.add]
  constructor
  · intro h
    have hmem : (⟨oi, oj⟩ : TileCoordinates) ∈
        [(⟨ci + 1, cj⟩ : TileCoordinates), ⟨ci, cj + 1⟩, ⟨ci + -1, cj⟩, ⟨ci, cj + -1⟩] := by
      simpa using h
    simp only [List.mem_cons, List.not_mem_nil, or_false, TileCoordinates.mk.injEq] at hmem
    rcases hmem with ⟨e1, e2⟩ | ⟨e1, e2⟩ | ⟨e1, e2⟩ | ⟨e1, e2⟩ <;> subst e1 <;> subst e2 <;> simp <;> omega
  · intro h
    have : (⟨oi, oj⟩ : TileCoordinates) ∈
        [(⟨ci + 1, cj⟩ : TileCoordinates), ⟨ci, cj + 1⟩, ⟨ci + -1, cj⟩, ⟨ci, cj + -1⟩] := by
      simp only [List.mem_cons, List.not_mem_nil, or_false, TileCoordinates.mk.injEq]
      omega
    simpa using this

theorem neighbour_ne (c o : TileCoordinates)
    (h : TileCoordinates.is_neighbour_of c o = true) : c ≠ o := by
  rw [is_neighbour_iff_manhattan] at h
  intro e
  subst e
  simp at h

/-- C8: for in-range coordinates `a`, `b` on a grid satisfying the invariant
(sentinel exactly once, all values distinct), `swap_tiles a b` exchanges
exactly the two cells' values, leaves every other cell unchanged, and
preserves the invariant. -/
theorem swap_tiles_exchanges_and_preserves_invariant (t : Taquin) (hwf : WF t)
    (a b : TileCoordinates) (ha : InRange t a) (hb : InRange t b)
    (hinv : SentinelInv t) :
    at2d (t.swap_tiles a b).tiles a.j.toNat a.i.toNat = at2d t.tiles b.j.toNat b.i.toNat ∧
    at2d (t.swap_tiles a b).tiles b.j.toNat b.i.toNat = at2d t.tiles a.j.toNat a.i.toNat ∧
    (∀ j i, j < t.size.toNat → i < t.size.toNat →
      ¬(j = a.j.toNat ∧ i = a.i.toNat) → ¬(j = b.j.toNat ∧ i = b.i.toNat) →
      at2d (t.swap_tiles a b).tiles j i = at2d t.tiles j i) ∧
    SentinelInv (t.swap_tiles a b) := by
  obtain ⟨c1, c2, c3⟩ := swap_tiles_cells t hwf a b ha hb
  refine ⟨c1, c2, fun j i _ _ hna hnb => c3 j i hna hnb, ?_⟩
  have hperm := swap_tiles_flatten_perm t hwf a b ha hb
  obtain ⟨hcnt, hnd⟩ := hinv
  constructor
  · have : (t.swap_tiles a b).tiles_nb = t.tiles_nb := rfl
    rw [this, hperm.count_eq, hcnt]
  · exact hperm.nodup_iff.mpr hnd

/-- C3: a move request changes the grid iff the selected and empty
coordinates are 4-adjacent (Manhattan distance exactly one, no wraparound)
before the call; when adjacent exactly the two cells' values are exchanged
and the two coordinate labels are swapped, and when not adjacent the state
is returned byte-for-byte unchanged.  The grid is assumed to satisfy the
data model's distinctness invariant (C8's `SentinelInv` includes it). -/
theorem move_changes_grid_iff_adjacent (s : MoveState) (hwf : WF s.taquin)
    (hsel : InRange s.taquin s.selected) (hemp : InRange s.taquin s.empty)
    (hnd : s.taquin.tiles.flatten.Nodup) :
    ((move_selected_tile s).state.taquin.tiles ≠ s.taquin.tiles ↔
      (s.selected.i - s.empty.i).natAbs + (s.selected.j - s.empty.j).natAbs = 1) ∧
    (TileCoordinates.is_neighbour_of s.selected s.empty = true →
      (move_selected_tile s).state.selected = s.empty ∧
      (move_selected_tile s).state.empty = s.selected ∧
      at2d (move_selected_tile s).state.taquin.tiles s.selected.j.toNat s.selected.i.toNat =
        at2d s.taquin.tiles s.empty.j.toNat s.empty.i.toNat ∧
      at2d (move_selected_tile s).state.taquin.tiles s.empty.j.toNat s.empty.i.toNat =
        at2d s.taquin.tiles s.selected.j.toNat s.selected.i.toNat ∧
      (∀ j i, j < s.taquin.size.toNat → i < s.taquin.size.toNat →
        ¬(j = s.selected.j.toNat ∧ i = s.selected.i.toNat) →
        ¬(j = s.empty.j.toNat ∧ i = s.empty.i.toNat) →
        at2d (move_selected_tile s).state.taquin.tiles j i = at2d s.taquin.tiles j i)) ∧
    (TileCoordinates.is_neighbour_of s.selected s.empty = false →
      (move_selected_tile s).state = s) := by
  by_cases hadj : TileCoordinates.is_neighbour_of s.selected s.empty = true
  · obtain ⟨c1, c2, c3⟩ := swap_tiles_cells s.taquin hwf s.empty s.selected hemp hsel
    have hstate : (move_selected_tile s).state =
        ⟨s.taquin.swap_tiles s.empty s.selected, s.empty, s.selected⟩ := by
      simp [move_selected_tile, hadj]
    have hne : s.selected ≠ s.empty := neighbour_ne _ _ hadj
    have hposne : ¬(s.empty.j.toNat = s.selected.j.toNat ∧
        s.empty.i.toNat = s.selected.i.toNat) := by
      obtain ⟨e1, e2, e3, e4⟩ := hsel
      obtain ⟨f1, f2, f3, f4⟩ := hemp
      intro ⟨g1, g2⟩
      exact hne (coord_eq_of_toNat s.selected s.empty e1 e3 f1 f3 g2.symm g1.symm)
    obtain ⟨hsj, hsi⟩ := inRange_toNat s.taquin s.selected hsel
    obtain ⟨hej, hei⟩ := inRange_toNat s.taquin s.empty hemp
    refine ⟨?_, fun _ => ?_, fun hf => ?_⟩
    · constructor
      · intro _
        exact (is_neighbour_iff_manhattan _ _).mp hadj
      · intro _ heq
        have hvalne : at2d s.taquin.tiles s.selected.j.toNat s.selected.i.toNat ≠
            at2d s.taquin.tiles s.empty.j.toNat s.empty.i.toNat := by
          apply at2d_ne_of_nodup s.taquin hwf hnd _ _ _ _ hsj hsi hej hei
          intro ⟨g1, g2⟩
          exact hposne ⟨g1.symm, g2.symm⟩
        have : at2d (move_selected_tile s).state.taquin.tiles
            s.selected.j.toNat s.selected.i.toNat =
            at2d s.taquin.tiles s.selected.j.toNat s.selected.i.toNat := by
          rw [heq]
        rw [hstate] at this
        rw [c2] at this
        exact hvalne (this ▸ rfl)
    · rw [hstate]
      exact ⟨rfl, rfl, c2, c1, fun j i _ _ hna hnb => c3 j i hnb hna⟩
    · rw [hadj] at hf
      exact absurd hf (by simp)
  · have hadj2 : TileCoordinates.is_neighbour_of s.selected s.empty = false := by
      simpa using hadj
    have hstate : (move_selected_tile s).state = s := by
      simp [move_selected_tile, hadj2]
    refine ⟨?_, fun ht => absurd ht hadj, fun _ => hstate⟩
    rw [hstate]
    simp only [ne_eq, not_true_eq_false, false_iff]
    intro hman
    exact hadj ((is_neighbour_iff_manhattan _ _).mpr hman)

/-- Witness for C3 at a concrete adjacent configuration on the 2×2 grid. -/
theorem move_changes_grid_iff_adjacent_witness :
    ((move_selected_tile ⟨⟨2, 4, [[1, 2], [3, 4]], false⟩, ⟨0, 1⟩, ⟨1, 1⟩⟩).state.taquin.tiles ≠
      [[1, 2], [3, 4]] ↔
      ((0 : Int) - 1).natAbs + ((1 : Int) - 1).natAbs = 1) ∧
    (TileCoordinates.is_neighbour_of ⟨0, 1⟩ ⟨1, 1⟩ = true →
      (move_selected_tile ⟨⟨2, 4, [[1, 2], [3, 4]], false⟩, ⟨0, 1⟩, ⟨1, 1⟩⟩).state.selected = ⟨1, 1⟩ ∧
      (move_selected_tile ⟨⟨2, 4, [[1, 2], [3, 4]], false⟩, ⟨0, 1⟩, ⟨1, 1⟩⟩).state.empty = ⟨0, 1⟩ ∧
      at2d (move_selected_tile ⟨⟨2, 4, [[1, 2], [3, 4]], false⟩, ⟨0, 1⟩, ⟨1, 1⟩⟩).state.taquin.tiles 1 0 =
        at2d [[1, 2], [3, 4]] 1 1 ∧
      at2d (move_selected_tile ⟨⟨2, 4, [[1, 2], [3, 4]], false⟩, ⟨0, 1⟩, ⟨1, 1⟩⟩).state.taquin.tiles 1 1 =
        at2d [[1, 2], [3, 4]] 1 0 ∧
      (∀ j i, j < (2 : Int).toNat → i < (2 : Int).toNat →
        ¬(j = 1 ∧ i = 0) → ¬(j = 1 ∧ i = 1) →
        at2d (move_selected_tile ⟨⟨2, 4, [[1, 2], [3, 4]], false⟩, ⟨0, 1⟩, ⟨1, 1⟩⟩).state.taquin.tiles j i =
          at2d [[1, 2], [3, 4]] j i)) ∧
    (TileCoordinates.is_neighbour_of ⟨0, 1⟩ ⟨1, 1⟩ = false →
      (move_selected_tile ⟨⟨2, 4, [[1, 2], [3, 4]], false⟩, ⟨0, 1⟩, ⟨1, 1⟩⟩).state =
        ⟨⟨2, 4, [[1, 2], [3, 4]], false⟩, ⟨0, 1⟩, ⟨1, 1⟩⟩) :=
  move_changes_grid_iff_adjacent ⟨⟨2, 4, [[1, 2], [3, 4]], false⟩, ⟨0, 1⟩, ⟨1, 1⟩⟩
    (by constructor; decide; constructor; decide; constructor; decide; constructor; decide; decide)
    (by constructor <;> decide) (by constructor <;> decide) (by decide)

/-- C6 counterexample: on the solved 2×2 grid with a non-adjacent selection,
the move request is a no-op yet a `TaquinSolved` transition is emitted (the
`is_solved` check of taquin.rs line 232 sits outside the adjacency branch),
refuting the claim that no transition is emitted on a non-adjacent request. -/
theorem non_adjacent_move_emits_solved :
    TileCoordinates.is_neighbour_of (⟨0, 0⟩ : TileCoordinates) ⟨1, 1⟩ = false ∧
    (move_selected_tile ⟨⟨2, 4, [[1, 2], [3, 4]], false⟩, ⟨0, 0⟩, ⟨1, 1⟩⟩).state =
      ⟨⟨2, 4, [[1, 2], [3, 4]], false⟩, ⟨0, 0⟩, ⟨1, 1⟩⟩ ∧
    (move_selected_tile ⟨⟨2, 4, [[1, 2], [3, 4]], false⟩, ⟨0, 0⟩, ⟨1, 1⟩⟩).tile_moved = false ∧
    (move_selected_tile ⟨⟨2, 4, [[1, 2], [3, 4]], false⟩, ⟨0, 0⟩, ⟨1, 1⟩⟩).solved_emitted = true := by
  refine ⟨by decide, by decide, by decide, by decide⟩

/-- C6 amended: a non-adjacent move request leaves the state unchanged and
emits no `TileMoved`, but the `TaquinSolved` transition is emitted exactly
when the (unchanged) grid is solved — it is not tied to a successful move. -/
theorem non_adjacent_move_state_unchanged (s : MoveState)
    (h : TileCoordinates.is_neighbour_of s.selected s.empty = false) :
    (move_selected_tile s).state = s ∧
    (move_selected_tile s).tile_moved = false ∧
    (move_selected_tile s).solved_emitted = s.taquin.is_solved := by
  simp [move_selected_tile, h]

/-- Witness for the amended C6 at a concrete non-adjacent, unsolved state. -/
theorem non_adjacent_move_state_unchanged_witness :
    (move_selected_tile ⟨⟨2, 4, [[2, 1], [3, 4]], false⟩, ⟨0, 0⟩, ⟨1, 1⟩⟩).state =
      ⟨⟨2, 4, [[2, 1], [3, 4]], false⟩, ⟨0, 0⟩, ⟨1, 1⟩⟩ ∧
    (move_selected_tile ⟨⟨2, 4, [[2, 1], [3, 4]], false⟩, ⟨0, 0⟩, ⟨1, 1⟩⟩).tile_moved = false ∧
    (move_selected_tile ⟨⟨2, 4, [[2, 1], [3, 4]], false⟩, ⟨0, 0⟩, ⟨1, 1⟩⟩).solved_emitted =
      Taquin.is_solved ⟨2, 4, [[2, 1], [3, 4]], false⟩ :=
  non_adjacent_move_state_unchanged ⟨⟨2, 4, [[2, 1], [3, 4]], false⟩, ⟨0, 0⟩, ⟨1, 1⟩⟩ (by decide)

/-- C7 counterexample: `Taquin::new` performs no size validation and no
initialization — `new 1` succeeds (no `InvalidSize` exists anywhere in the
source) and `new 2` yields an empty tile matrix, not the ascending grid. -/
theorem new_does_not_validate_or_initialize :
    Taquin.new 1 = ⟨1, 1, [], false⟩ ∧
    Taquin.new 2 = ⟨2, 4, [], false⟩ ∧
    (Taquin.new 2).tiles ≠ [[1, 2], [3, 4]] := by
  refine ⟨by decide, by decide, by decide⟩

/-- C2: whenever the shuffle retry loop accepts a candidate and returns, the
resulting grid is not solved, is solvable, and has `is_shuffled = true` —
for every starting grid and every choice of random draws. -/
theorem shuffle_postcondition (t : Taquin)
    (batches : List (List (TileCoordinates × TileCoordinates))) (t2 : Taquin)
    (h : shuffle t batches = some t2) :
    t2.is_solved = false ∧ t2.is_solvable = true ∧ t2.is_shuffled = true := by
  induction batches generalizing t with
  | nil => simp [shuffle] at h
  | cons batch rest ih =>
    rw [shuffle] at h
    by_cases hacc : (do_shuffle t batch).2 = true
    · rw [if_pos hacc] at h
      have ht2 : t2 = { (do_shuffle t batch).1 with is_shuffled := true } :=
        (Option.some_inj.mp h).symm
      have hacc2 : (!(do_shuffle t batch).1.is_solved &&
          (do_shuffle t batch).1.is_solvable) = true := hacc
      rw [Bool.and_eq_true, Bool.not_eq_true'] at hacc2
      obtain ⟨hnsolved, hsolvable⟩ := hacc2
      subst ht2
      cases hr : (do_shuffle t batch).1 with | mk sz nb tl sh =>
      rw [hr] at hnsolved hsolvable
      exact ⟨hnsolved, hsolvable, rfl⟩
    · rw [if_neg hacc] at h
      exact ih _ h

/-- Witness for C2: from the solved 2×2 grid, one batch of two draws yields
the grid `[[3, 1], [2, 4]]`, which the loop accepts. -/
theorem shuffle_postcondition_witness :
    Taquin.is_solved ⟨2, 4, [[3, 1], [2, 4]], true⟩ = false ∧
    Taquin.is_solvable ⟨2, 4, [[3, 1], [2, 4]], true⟩ = true ∧
    Taquin.is_shuffled ⟨2, 4, [[3, 1], [2, 4]], true⟩ = true :=
  shuffle_postcondition ⟨2, 4, [[1, 2], [3, 4]], false⟩
    [[(⟨0, 0⟩, ⟨0, 1⟩), (⟨0, 1⟩, ⟨1, 0⟩)]] ⟨2, 4, [[3, 1], [2, 4]], true⟩ (by decide)

/-- C9: the historical `is_solvable` of main.rs and `Taquin::is_solvable` of
taquin.rs are not extensionally equal: on this 3×3 grid (odd `N`, blank in
row 1, zero inversions) main.rs tests the blank's row parity alone and
answers `false`, while taquin.rs tests the inversion parity and answers
`true`. -/
theorem historical_is_solvable_disagree :
    MainRs.is_solvable ⟨3, 9, [[1, 2, 3], [4, 9, 5], [6, 7, 8]], false⟩
        (Taquin.get_empty_tile_coordinates ⟨3, 9, [[1, 2, 3], [4, 9, 5], [6, 7, 8]], false⟩) ≠
      Taquin.is_solvable ⟨3, 9, [[1, 2, 3], [4, 9, 5], [6, 7, 8]], false⟩ := by
  decide

theorem filter_zip_tail_nil_iff :
    ∀ l : List TileValue,
      (l.zip l.tail).filter (fun a => decide (a.2 < a.1)) = [] ↔
        List.Chain' (fun x y : Int => x ≤ y) l := by
  intro l
  induction l with
  | nil => simp
  | cons a tail ih =>
    cases tail with
    | nil => simp
    | cons b rest =>
      rw [List.chain'_cons]
      constructor
      · intro h
        simp only [List.zip_cons_cons, List.tail_cons, List.filter_cons] at h
        by_cases hba : b < a
        · simp [hba] at h
        · refine ⟨le_of_not_lt hba, ?_⟩
          rw [← ih]
          simpa [hba] using h
      · intro hh
        obtain ⟨hab, hch⟩ := hh
        simp only [List.zip_cons_cons, List.tail_cons, List.filter_cons]
        have hba : ¬(b < a) := not_lt.mpr hab
        rw [← ih] at hch
        simpa [hba] using hch

theorem ascending_sorted (n : Nat) :
    List.Sorted (fun x y : Int => x ≤ y) (ascending n) := by
  unfold List.Sorted
  rw [List.pairwise_iff_getElem]
  intro i j hi hj hij
  unfold ascending at hi hj ⊢
  rw [List.getElem_map, List.getElem_map, List.getElem_range, List.getElem_range]
  omega

/-- C5: on a grid satisfying the permutation invariant, `is_solved` is true
iff the row-major flattening is the strictly increasing sequence
`1, 2, …, N²`. -/
theorem is_solved_iff_ascending (t : Taquin) (hwf : WF t) (hperm : PermInv t) :
    (t.is_solved = true ↔ t.tiles.flatten = ascending t.tiles_nb) := by
  unfold Taquin.is_solved
  rw [beq_iff_eq, List.length_eq_zero, filter_zip_tail_nil_iff]
  constructor
  · intro hch
    exact List.eq_of_perm_of_sorted hperm (List.chain'_iff_pairwise.mp hch)
      (ascending_sorted _)
  · intro he
    rw [he]
    exact List.chain'_iff_pairwise.mpr (ascending_sorted _)

/-- Witness for C5 at the solved 2×2 grid. -/
theorem is_solved_iff_ascending_witness :
    (Taquin.is_solved ⟨2, 4, [[1, 2], [3, 4]], false⟩ = true ↔
      List.flatten [[(1 : Int), 2], [3, 4]] = ascending 4) :=
  is_solved_iff_ascending ⟨2, 4, [[1, 2], [3, 4]], false⟩ (by decide) (by decide)

theorem list_ext_getD (l1 l2 : List TileValue) (hlen : l1.length = l2.length)
    (h : ∀ n, n < l1.length → l1.getD n 0 = l2.getD n 0) : l1 = l2 := by
  apply List.ext_getElem hlen
  intro n h1 h2
  have e := h n h1
  rw [List.getD_eq_getElem _ _ h1] at e
  rw [List.getD_eq_getElem _ _ h2] at e
  exact e

/-- C7 amended: `Taquin::new` never fails and performs no initialization —
it returns the record with `tiles_nb = size²` and an empty tile matrix
(there is no `InvalidSize` error in the source); the ascending
initialization the claim describes is performed by the `setup_tiles` system
(historical main.rs snapshot), whose grid flattens to the ascending values
`1, …, N² − 1` followed by the sentinel `N²` at the last cell.  Stated for
`2 ≤ size ≤ 11`, the regime in which every `i8` intermediate of the source
(`size * size` in `new`, `j * size + i + 1` in `setup_tiles`) is exactly
representable; beyond it the source's `i8` arithmetic overflows and this
unbounded-integer model no longer describes it. -/
theorem new_empty_and_setup_tiles_ascending (size : Int) (h2 : 2 ≤ size)
    (h11 : size ≤ 11) :
    Taquin.new size = ⟨size, (size * size).toNat, [], false⟩ ∧
    (setup_tiles_grid size).flatten =
      ascending (size.toNat * size.toNat - 1) ++ [size * size] := by
  refine ⟨rfl, ?_⟩
  set N := size.toNat with hN
  have hN2 : 2 ≤ N := by omega
  have hNpos : 0 < N := by omega
  have hsize : (N : Int) = size := Int.toNat_of_nonneg (by omega)
  have hNle : N ≤ N * N := by
    have := Nat.mul_le_mul_left N (show 1 ≤ N by omega)
    omega
  have hmulsub : N * (N - 1) = N * N - N := by
    rw [Nat.mul_sub]
    omega
  have hsubmul : (N - 1) * N = N * N - N := by
    rw [Nat.sub_mul]
    omega
  have hrows : ∀ row ∈ setup_tiles_grid size, row.length = N := by
    intro row hrow
    unfold setup_tiles_grid at hrow
    rw [List.mem_map] at hrow
    obtain ⟨j, _, heq⟩ := hrow
    rw [← heq, List.length_map, List.length_range]
  have hglen : (setup_tiles_grid size).length = N := by
    unfold setup_tiles_grid
    rw [List.length_map, List.length_range]
  have hflen : (setup_tiles_grid size).flatten.length = N * N := by
    rw [flatten_length_of_rows N _ hrows, hglen]
  have hasclen : (ascending (N * N - 1)).length = N * N - 1 := by
    unfold ascending
    rw [List.length_map, List.length_range]
  have hrowval : ∀ j : Nat, j < N → (setup_tiles_grid size).getD j [] =
      List.map (fun i : Nat => if i = N - 1 ∧ j = N - 1 then size * size
        else (j : Int) * size + (i : Int) + 1) (List.range N) := by
    intro j hj
    unfold setup_tiles_grid
    rw [List.getD_eq_getElem _ _ (by rw [List.length_map, List.length_range]; exact hj)]
    rw [List.getElem_map, List.getElem_range]
  have hat : ∀ j i : Nat, j < N → i < N →
      at2d (setup_tiles_grid size) j i =
        (if i = N - 1 ∧ j = N - 1 then size * size
         else (j : Int) * size + (i : Int) + 1) := by
    intro j i hj hi
    unfold at2d
    rw [hrowval j hj]
    rw [List.getD_eq_getElem _ _ (by rw [List.length_map, List.length_range]; exact hi)]
    rw [List.getElem_map, List.getElem_range]
  have hasc : ∀ m k : Nat, m < k → (ascending k).getD m 0 = (m : Int) + 1 := by
    intro m k hmk
    unfold ascending
    rw [List.getD_eq_getElem _ _ (by rw [List.length_map, List.length_range]; exact hmk)]
    rw [List.getElem_map, List.getElem_range]
  apply list_ext_getD _ _ (by
    rw [hflen, List.length_append, hasclen]
    simp
    omega)
  intro n hn
  rw [hflen] at hn
  have hj : n / N < N := Nat.div_lt_of_lt_mul hn
  have hi : n % N < N := Nat.mod_lt _ hNpos
  have hsum : n / N * N + n % N = n := by
    rw [Nat.mul_comm]
    exact Nat.div_add_mod n N
  have hL : (setup_tiles_grid size).flatten.getD n 0 =
      at2d (setup_tiles_grid size) (n / N) (n % N) := by
    conv_lhs => rw [← hsum]
    exact flatten_getD N _ hrows _ _ (by rw [hglen]; exact hj) hi
  rw [hL, hat _ _ hj hi]
  have hkey : N * N - 1 = (N - 1) + N * (N - 1) := by omega
  by_cases hlast : n = N * N - 1
  · have hmod : n % N = N - 1 := by
      rw [hlast, hkey, Nat.add_mul_mod_self_left]
      exact Nat.mod_eq_of_lt (by omega)
    have hdiv : n / N = N - 1 := by
      rw [hlast, hkey, Nat.add_mul_div_left _ _ hNpos]
      rw [Nat.div_eq_of_lt (by omega)]
      omega
    rw [if_pos ⟨hmod, hdiv⟩]
    rw [List.getD_append_right _ _ _ _ (by rw [hasclen]; omega)]
    rw [hasclen, hlast]
    simp
  · have hn2 : n < N * N - 1 := by omega
    have hcond : ¬(n % N = N - 1 ∧ n / N = N - 1) := by
      intro hc
      obtain ⟨hc1, hc2⟩ := hc
      rw [hc1, hc2] at hsum
      omega
    rw [if_neg hcond]
    rw [List.getD_append _ _ _ _ (by rw [hasclen]; omega)]
    rw [hasc _ _ hn2]
    rw [← hsize]
    have hcast : ((n / N : Nat) : Int) * (N : Int) + ((n % N : Nat) : Int) = (n : Int) := by
      exact_mod_cast hsum
    rw [show ((n / N : Nat) : Int) * (N : Int) + ((n % N : Nat) : Int) + 1 =
        (((n / N : Nat) : Int) * (N : Int) + ((n % N : Nat) : Int)) + 1 by ring, hcast]

/-- Witness for the amended C7 at size 2. -/
theorem new_empty_and_setup_tiles_ascending_witness :
    Taquin.new 2 = ⟨2, ((2 : Int) * 2).toNat, [], false⟩ ∧
    (setup_tiles_grid 2).flatten =
      ascending ((2 : Int).toNat * (2 : Int).toNat - 1) ++ [(2 : Int) * 2] :=
  new_empty_and_setup_tiles_ascending 2 (by decide) (by decide)

theorem scanRow_of_not_mem (s : TileValue) (j : Nat) :
    ∀ (row : List TileValue), s ∉ row → ∀ i acc, scanRow s j i row acc = acc := by
  intro row
  induction row with
  | nil => intro _ i acc; rfl
  | cons v rest ih =>
    intro h i acc
    have hv : ¬(v = s) := fun e => h (by rw [← e]; exact List.mem_cons_self v rest)
    simp only [scanRow, if_neg hv]
    exact ih (fun hm => h (List.mem_cons_of_mem _ hm)) _ _

theorem scanRow_of_count_one (s : TileValue) (j : Nat) :
    ∀ (row : List TileValue), row.count s = 1 →
      ∀ i0 acc, ∃ k, k < row.length ∧ row.getD k 0 = s ∧
        scanRow s j i0 row acc = (i0 + k, j) := by
  intro row
  induction row with
  | nil => intro h; simp at h
  | cons v rest ih =>
    intro h i0 acc
    by_cases hv : v = s
    · subst hv
      have hrest : rest.count v = 0 := by
        rw [List.count_cons_self] at h
        omega
      have hnm : v ∉ rest := List.count_eq_zero.mp hrest
      refine ⟨0, by simp, by rw [List.getD_cons_zero], ?_⟩
      simp only [scanRow, if_pos rfl]
      rw [scanRow_of_not_mem v j rest hnm]
      simp
    · have hrest : rest.count s = 1 := by
        rw [List.count_cons] at h
        have hvs : (v == s) = false := beq_eq_false_iff_ne.mpr hv
        rw [hvs] at h
        simpa using h
      obtain ⟨k, hk, hks, hres⟩ := ih hrest (i0 + 1) acc
      refine ⟨k + 1, by simp only [List.length_cons]; omega,
        by rw [List.getD_cons_succ]; exact hks, ?_⟩
      simp only [scanRow, if_neg hv]
      rw [hres]
      have harith : i0 + 1 + k = i0 + (k + 1) := by omega
      rw [harith]

theorem scanRows_of_all_not_mem (s : TileValue) :
    ∀ (rows : List (List TileValue)), (∀ row ∈ rows, s ∉ row) →
      ∀ j acc, scanRows s j rows acc = acc := by
  intro rows
  induction rows with
  | nil => intro _ j acc; rfl
  | cons row rest ih =>
    intro h j acc
    simp only [scanRows]
    rw [scanRow_of_not_mem s j row (h row (by simp))]
    exact ih (fun r hr => h r (by simp [hr])) _ _

theorem scanRows_of_count_one (s : TileValue) :
    ∀ (rows : List (List TileValue)), rows.flatten.count s = 1 →
      ∀ j0 acc, ∃ r k, r < rows.length ∧ k < (rows.getD r []).length ∧
        (rows.getD r []).getD k 0 = s ∧ scanRows s j0 rows acc = (k, j0 + r) := by
  intro rows
  induction rows with
  | nil => intro h; simp at h
  | cons row rest ih =>
    intro h j0 acc
    have hsplit : row.count s + rest.flatten.count s = 1 := by
      rw [List.flatten_cons, List.count_append] at h
      exact h
    by_cases hrow : row.count s = 0
    · have hrest : rest.flatten.count s = 1 := by omega
      have hnm : s ∉ row := List.count_eq_zero.mp hrow
      obtain ⟨r, k, hr, hk, hks, hres⟩ := ih hrest (j0 + 1) (scanRow s j0 0 row acc)
      refine ⟨r + 1, k, by simp only [List.length_cons]; omega,
        by rw [List.getD_cons_succ]; exact hk,
        by rw [List.getD_cons_succ]; exact hks, ?_⟩
      simp only [scanRows]
      rw [hres]
      have harith : j0 + 1 + r = j0 + (r + 1) := by omega
      rw [harith]
    · have hrow1 : row.count s = 1 := by
        have hpos : 0 < row.count s := Nat.pos_of_ne_zero hrow
        omega
      have hrest : rest.flatten.count s = 0 := by omega
      obtain ⟨k, hk, hks, hres⟩ := scanRow_of_count_one s j0 row hrow1 0 acc
      have hall : ∀ row2 ∈ rest, s ∉ row2 := by
        intro row2 hm hmem
        have hpos : 0 < rest.flatten.count s :=
          List.count_pos_iff.mpr (List.mem_flatten.mpr ⟨row2, hm, hmem⟩)
        omega
      refine ⟨0, k, by simp only [List.length_cons]; omega,
        by rw [List.getD_cons_zero]; exact hk,
        by rw [List.getD_cons_zero]; exact hks, ?_⟩
      simp only [scanRows]
      rw [hres, scanRows_of_all_not_mem s rest hall]
      simp

theorem get_empty_tile_coordinates_eq (t : Taquin) (hwf : WF t)
    (hcnt : t.tiles.flatten.count ((t.tiles_nb : Int)) = 1)
    (bi bj : Nat) (hbi : bi < t.size.toNat) (hbj : bj < t.size.toNat)
    (hblank : at2d t.tiles bj bi = (t.tiles_nb : Int)) :
    t.get_empty_tile_coordinates = ⟨(bi : Int), (bj : Int)⟩ := by
  obtain ⟨r, k, hr, hk, hks, hres⟩ := scanRows_of_count_one _ t.tiles hcnt 0 (0, 0)
  have hlen := hwf.2.2.2.1
  have hrows := hwf.2.2.2.2
  have hrN : r < t.size.toNat := by omega
  have hkN : k < t.size.toNat := by
    rw [row_length_of_rows _ _ _ hrows (by omega)] at hk
    exact hk
  have hat : at2d t.tiles r k = ((t.tiles_nb : Nat) : Int) := hks
  obtain ⟨e1, e2⟩ := at2d_unique t hwf _ hcnt r k bj bi hrN hkN hbj hbi hat hblank
  unfold Taquin.get_empty_tile_coordinates
  rw [hres]
  unfold TileCoordinates.new
  rw [TileCoordinates.mk.injEq]
  constructor
  · show ((k : Nat) : Int) = (bi : Int)
    omega
  · show ((0 + r : Nat) : Int) = (bj : Int)
    omega

theorem ascending_nodup (n : Nat) : (ascending n).Nodup := by
  unfold ascending
  apply List.Nodup.map
  · intro a b hab
    have hab2 : (a : Int) + 1 = (b : Int) + 1 := hab
    omega
  · exact List.nodup_range n

theorem count_sentinel_of_perm (t : Taquin) (hwf : WF t) (hperm : PermInv t) :
    t.tiles.flatten.count ((t.tiles_nb : Int)) = 1 := by
  have hnb1 : 1 ≤ t.tiles_nb := by
    have hnb := hwf.2.2.1
    have hpos : 0 < t.size := hwf.1
    have : 0 < t.size.toNat * t.size.toNat := Nat.mul_pos (by omega) (by omega)
    omega
  rw [hperm.count_eq]
  apply List.count_eq_one_of_mem (ascending_nodup _)
  unfold ascending
  rw [List.mem_map]
  refine ⟨t.tiles_nb - 1, ?_, ?_⟩
  · rw [List.mem_range]
    omega
  · show ((t.tiles_nb - 1 : Nat) : Int) + 1 = ((t.tiles_nb : Nat) : Int)
    omega

/-- C1: on a grid satisfying the permutation invariant with the blank
(sentinel) at 0-indexed row `bj`, `is_solvable` is true iff the classic
parity combination holds: for odd `N`, iff the inversion count is even; for
even `N`, iff the parity of the inversion count being even differs from the
parity of the blank's row (from the top) being even. -/
theorem is_solvable_parity_theorem (t : Taquin) (hwf : WF t) (hperm : PermInv t)
    (bi bj : Nat) (hbi : bi < t.size.toNat) (hbj : bj < t.size.toNat)
    (hblank : at2d t.tiles bj bi = (t.tiles_nb : Int)) :
    (t.is_solvable = true ↔
      (if t.size % 2 = 1 then t.get_inversion_count % 2 = 0
       else ¬(t.get_inversion_count % 2 = 0 ↔ bj % 2 = 0))) := by
  have hcnt := count_sentinel_of_perm t hwf hperm
  have hemp := get_empty_tile_coordinates_eq t hwf hcnt bi bj hbi hbj hblank
  unfold Taquin.is_solvable
  rw [hemp]
  by_cases hodd : t.size % 2 = 1
  · rw [if_pos hodd, if_pos hodd]
    simp
  · rw [if_neg hodd, if_neg hodd]
    by_cases hbje : ((bj : Int)) % 2 = 1
    · have hbj2 : ¬(bj % 2 = 0) := by omega
      rw [if_pos hbje]
      simp only [decide_eq_true_eq]
      constructor
      · intro h1 hiff
        exact hbj2 (hiff.mp h1)
      · intro h2
        by_contra hcon
        exact h2 (iff_of_false hcon hbj2)
    · have hbj0 : bj % 2 = 0 := by omega
      rw [if_neg hbje]
      simp only [decide_eq_true_eq]
      constructor
      · intro h1 hiff
        have h0 := hiff.mpr hbj0
        omega
      · intro h2
        have hne : ¬(t.get_inversion_count % 2 = 0) :=
          fun h0 => h2 (iff_of_true h0 hbj0)
        omega

/-- Witness for C1 at the solved 3×3 grid (odd `N`, blank at row 2). -/
theorem is_solvable_parity_theorem_witness :
    (Taquin.is_solvable ⟨3, 9, [[1, 2, 3], [4, 5, 6], [7, 8, 9]], false⟩ = true ↔
      (if (3 : Int) % 2 = 1 then
        Taquin.get_inversion_count ⟨3, 9, [[1, 2, 3], [4, 5, 6], [7, 8, 9]], false⟩ % 2 = 0
       else ¬(Taquin.get_inversion_count ⟨3, 9, [[1, 2, 3], [4, 5, 6], [7, 8, 9]], false⟩ % 2 = 0 ↔
          2 % 2 = 0))) :=
  is_solvable_parity_theorem ⟨3, 9, [[1, 2, 3], [4, 5, 6], [7, 8, 9]], false⟩
    (by decide) (by decide) 2 2 (by decide) (by decide) (by decide)

theorem inRange_mk (t : Taquin) (x y : Int) :
    InRange t ⟨x, y⟩ ↔ (0 ≤ x ∧ x < t.size ∧ 0 ≤ y ∧ y < t.size) := Iff.rfl

theorem stepLeft_spec (t : Taquin) (hsz : 2 ≤ t.size) (c : TileCoordinates)
    (hc : InRange t c) :
    InRange t (stepLeft t.size c) ∧ stepLeft t.size c ≠ c ∧
      stepLeft t.size c = toroidalStep t.size KeyCode.Left c := by
  obtain ⟨h1, h2, h3, h4⟩ := hc
  unfold stepLeft toroidalStep
  by_cases h : c.i - 1 < 0
  · rw [if_pos h]
    refine ⟨(inRange_mk t _ _).mpr (by omega), ?_, ?_⟩
    · intro he
      have he2 : t.size - 1 = c.i := congrArg TileCoordinates.i he
      omega
    · rw [TileCoordinates.mk.injEq]
      refine ⟨?_, rfl⟩
      have hci : c.i = 0 := by omega
      rw [hci]
      have e1 : (0 - 1 + t.size : Int) = t.size - 1 := by ring
      rw [e1, Int.emod_eq_of_lt (by omega) (by omega)]
  · rw [if_neg h]
    refine ⟨(inRange_mk t _ _).mpr (by omega), ?_, ?_⟩
    · intro he
      have he2 : c.i - 1 = c.i := congrArg TileCoordinates.i he
      omega
    · rw [TileCoordinates.mk.injEq]
      refine ⟨?_, rfl⟩
      have e1 : (c.i - 1 + t.size : Int) = (c.i - 1) + t.size * 1 := by ring
      rw [e1, Int.add_mul_emod_self_left, Int.emod_eq_of_lt (by omega) (by omega)]

theorem stepRight_spec (t : Taquin) (hsz : 2 ≤ t.size) (c : TileCoordinates)
    (hc : InRange t c) :
    InRange t (stepRight t.size c) ∧ stepRight t.size c ≠ c ∧
      stepRight t.size c = toroidalStep t.size KeyCode.Right c := by
  obtain ⟨h1, h2, h3, h4⟩ := hc
  unfold stepRight toroidalStep
  by_cases h : t.size ≤ c.i + 1
  · rw [if_pos h]
    refine ⟨(inRange_mk t _ _).mpr (by omega), ?_, ?_⟩
    · intro he
      have he2 : (0 : Int) = c.i := congrArg TileCoordinates.i he
      omega
    · rw [TileCoordinates.mk.injEq]
      refine ⟨?_, rfl⟩
      have hci : c.i + 1 = t.size := by omega
      rw [hci, Int.emod_self]
  · rw [if_neg h]
    refine ⟨(inRange_mk t _ _).mpr (by omega), ?_, ?_⟩
    · intro he
      have he2 : c.i + 1 = c.i := congrArg TileCoordinates.i he
      omega
    · rw [TileCoordinates.mk.injEq]
      refine ⟨?_, rfl⟩
      rw [Int.emod_eq_of_lt (by omega) (by omega)]

theorem stepUp_spec (t : Taquin) (hsz : 2 ≤ t.size) (c : TileCoordinates)
    (hc : InRange t c) :
    InRange t (stepUp t.size c) ∧ stepUp t.size c ≠ c ∧
      stepUp t.size c = toroidalStep t.size KeyCode.Up c := by
  obtain ⟨h1, h2, h3, h4⟩ := hc
  unfold stepUp toroidalStep
  by_cases h : c.j - 1 < 0
  · rw [if_pos h]
    refine ⟨(inRange_mk t _ _).mpr (by omega), ?_, ?_⟩
    · intro he
      have he2 : t.size - 1 = c.j := congrArg TileCoordinates.j he
      omega
    · rw [TileCoordinates.mk.injEq]
      refine ⟨rfl, ?_⟩
      have hcj : c.j = 0 := by omega
      rw [hcj]
      have e1 : (0 - 1 + t.size : Int) = t.size - 1 := by ring
      rw [e1, Int.emod_eq_of_lt (by omega) (by omega)]
  · rw [if_neg h]
    refine ⟨(inRange_mk t _ _).mpr (by omega), ?_, ?_⟩
    · intro he
      have he2 : c.j - 1 = c.j := congrArg TileCoordinates.j he
      omega
    · rw [TileCoordinates.mk.injEq]
      refine ⟨rfl, ?_⟩
      have e1 : (c.j - 1 + t.size : Int) = (c.j - 1) + t.size * 1 := by ring
      rw [e1, Int.add_mul_emod_self_left, Int.emod_eq_of_lt (by omega) (by omega)]

theorem stepDown_spec (t : Taquin) (hsz : 2 ≤ t.size) (c : TileCoordinates)
    (hc : InRange t c) :
    InRange t (stepDown t.size c) ∧ stepDown t.size c ≠ c ∧
      stepDown t.size c = toroidalStep t.size KeyCode.Down c := by
  obtain ⟨h1, h2, h3, h4⟩ := hc
  unfold stepDown toroidalStep
  by_cases h : t.size ≤ c.j + 1
  · rw [if_pos h]
    refine ⟨(inRange_mk t _ _).mpr (by omega), ?_, ?_⟩
    · intro he
      have he2 : (0 : Int) = c.j := congrArg TileCoordinates.j he
      omega
    · rw [TileCoordinates.mk.injEq]
      refine ⟨rfl, ?_⟩
      have hcj : c.j + 1 = t.size := by omega
      rw [hcj, Int.emod_self]
  · rw [if_neg h]
    refine ⟨(inRange_mk t _ _).mpr (by omega), ?_, ?_⟩
    · intro he
      have he2 : c.j + 1 = c.j := congrArg TileCoordinates.j he
      omega
    · rw [TileCoordinates.mk.injEq]
      refine ⟨rfl, ?_⟩
      rw [Int.emod_eq_of_lt (by omega) (by omega)]

theorem selection_loop_succ (t : Taquin) (step : TileCoordinates → TileCoordinates)
    (c : TileCoordinates) (n : Nat) :
    selection_loop t step c (n + 1) =
      (if TileValue.is_empty (at2d t.tiles (step c).j.toNat (step c).i.toNat) t.size then
        selection_loop t step (step c) n
      else some (step c)) := rfl

theorem selection_loop_ok (t : Taquin) (hwf : WF t)
    (step : TileCoordinates → TileCoordinates)
    (hcnt : t.tiles.flatten.count (t.size * t.size) = 1)
    (hpres : ∀ x, InRange t x → InRange t (step x))
    (hne : ∀ x, InRange t x → step x ≠ x)
    (c : TileCoordinates) (hc : InRange t c) (fuel : Nat) (hfuel : 2 ≤ fuel) :
    ∃ c2, selection_loop t step c fuel = some c2 ∧
      c2 = (if TileValue.is_empty (at2d t.tiles (step c).j.toNat (step c).i.toNat) t.size = true
            then step (step c) else step c) ∧
      TileValue.is_empty (at2d t.tiles c2.j.toNat c2.i.toNat) t.size = false := by
  obtain ⟨f, rfl⟩ : ∃ f, fuel = f + 2 := ⟨fuel - 2, by omega⟩
  have hc1 : InRange t (step c) := hpres c hc
  by_cases h1 : TileValue.is_empty (at2d t.tiles (step c).j.toNat (step c).i.toNat) t.size = true
  · have hc2 : InRange t (step (step c)) := hpres _ hc1
    have hne2 : step (step c) ≠ step c := hne _ hc1
    have e1 : at2d t.tiles (step c).j.toNat (step c).i.toNat = t.size * t.size := by
      simpa [TileValue.is_empty] using h1
    have h2 : TileValue.is_empty
        (at2d t.tiles (step (step c)).j.toNat (step (step c)).i.toNat) t.size = false := by
      by_contra hcon
      have h2t : TileValue.is_empty
          (at2d t.tiles (step (step c)).j.toNat (step (step c)).i.toNat) t.size = true := by
        rcases Bool.eq_false_or_eq_true (TileValue.is_empty
          (at2d t.tiles (step (step c)).j.toNat (step (step c)).i.toNat) t.size) with hb | hb
        · exact hb
        · exact absurd hb hcon
      have e2 : at2d t.tiles (step (step c)).j.toNat (step (step c)).i.toNat =
          t.size * t.size := by
        simpa [TileValue.is_empty] using h2t
      obtain ⟨ej, ei⟩ := at2d_unique t hwf _ hcnt _ _ _ _
        (inRange_toNat t _ hc2).1 (inRange_toNat t _ hc2).2
        (inRange_toNat t _ hc1).1 (inRange_toNat t _ hc1).2 e2 e1
      exact hne2 (coord_eq_of_toNat _ _ hc2.1 hc2.2.2.1 hc1.1 hc1.2.2.1 ei ej)
    refine ⟨step (step c), ?_, by rw [if_pos h1], h2⟩
    rw [selection_loop_succ, if_pos h1, selection_loop_succ,
      if_neg (by rw [h2]; exact Bool.false_ne_true)]
  · have h1f : TileValue.is_empty (at2d t.tiles (step c).j.toNat (step c).i.toNat)
        t.size = false := by
      rcases Bool.eq_false_or_eq_true (TileValue.is_empty
        (at2d t.tiles (step c).j.toNat (step c).i.toNat) t.size) with hb | hb
      · exact absurd hb h1
      · exact hb
    refine ⟨step c, ?_, by rw [if_neg h1], h1f⟩
    rw [selection_loop_succ, if_neg (by rw [h1f]; exact Bool.false_ne_true)]

/-- C4: for a well-formed grid of size at least 2 holding exactly one
sentinel, every directional selection step terminates (with any fuel at
least 2) and returns the coordinate one toroidal step away, or one further
step when that candidate holds the sentinel; the returned coordinate never
holds the sentinel. -/
theorem get_next_selection_correct (t : Taquin) (hwf : WF t) (hsz : 2 ≤ t.size)
    (hcnt : t.tiles.flatten.count (t.size * t.size) = 1)
    (c : TileCoordinates) (hc : InRange t c) (k : KeyCode)
    (hk : k = KeyCode.Left ∨ k = KeyCode.Right ∨ k = KeyCode.Up ∨ k = KeyCode.Down)
    (fuel : Nat) (hfuel : 2 ≤ fuel) :
    ∃ c2, t.get_next_selection_coordinates c k fuel = some c2 ∧
      c2 = (if TileValue.is_empty
              (at2d t.tiles (toroidalStep t.size k c).j.toNat
                (toroidalStep t.size k c).i.toNat) t.size = true
            then toroidalStep t.size k (toroidalStep t.size k c)
            else toroidalStep t.size k c) ∧
      TileValue.is_empty (at2d t.tiles c2.j.toNat c2.i.toNat) t.size = false := by
  rcases hk with rfl | rfl | rfl | rfl
  · obtain ⟨c2, hc2, hch, hcv⟩ := selection_loop_ok t hwf (stepLeft t.size) hcnt
      (fun x hx => (stepLeft_spec t hsz x hx).1)
      (fun x hx => (stepLeft_spec t hsz x hx).2.1) c hc fuel hfuel
    refine ⟨c2, hc2, ?_, hcv⟩
    rw [hch, (stepLeft_spec t hsz c hc).2.2]
    have hcin : InRange t (toroidalStep t.size KeyCode.Left c) := by
      rw [← (stepLeft_spec t hsz c hc).2.2]
      exact (stepLeft_spec t hsz c hc).1
    rw [(stepLeft_spec t hsz _ hcin).2.2]
  · obtain ⟨c2, hc2, hch, hcv⟩ := selection_loop_ok t hwf (stepRight t.size) hcnt
      (fun x hx => (stepRight_spec t hsz x hx).1)
      (fun x hx => (stepRight_spec t hsz x hx).2.1) c hc fuel hfuel
    refine ⟨c2, hc2, ?_, hcv⟩
    rw [hch, (stepRight_spec t hsz c hc).2.2]
    have hcin : InRange t (toroidalStep t.size KeyCode.Right c) := by
      rw [← (stepRight_spec t hsz c hc).2.2]
      exact (stepRight_spec t hsz c hc).1
    rw [(stepRight_spec t hsz _ hcin).2.2]
  · obtain ⟨c2, hc2, hch, hcv⟩ := selection_loop_ok t hwf (stepUp t.size) hcnt
      (fun x hx => (stepUp_spec t hsz x hx).1)
      (fun x hx => (stepUp_spec t hsz x hx).2.1) c hc fuel hfuel
    refine ⟨c2, hc2, ?_, hcv⟩
    rw [hch, (stepUp_spec t hsz c hc).2.2]
    have hcin : InRange t (toroidalStep t.size KeyCode.Up c) := by
      rw [← (stepUp_spec t hsz c hc).2.2]
      exact (stepUp_spec t hsz c hc).1
    rw [(stepUp_spec t hsz _ hcin).2.2]
  · obtain ⟨c2, hc2, hch, hcv⟩ := selection_loop_ok t hwf (stepDown t.size) hcnt
      (fun x hx => (stepDown_spec t hsz x hx).1)
      (fun x hx => (stepDown_spec t hsz x hx).2.1) c hc fuel hfuel
    refine ⟨c2, hc2, ?_, hcv⟩
    rw [hch, (stepDown_spec t hsz c hc).2.2]
    have hcin : InRange t (toroidalStep t.size KeyCode.Down c) := by
      rw [← (stepDown_spec t hsz c hc).2.2]
      exact (stepDown_spec t hsz c hc).1
    rw [(stepDown_spec t hsz _ hcin).2.2]

/-- Witness for C4 on the solved 2×2 grid, stepping Left from `(0, 0)`. -/
theorem get_next_selection_correct_witness :
    ∃ c2, Taquin.get_next_selection_coordinates ⟨2, 4, [[1, 2], [3, 4]], false⟩
        ⟨0, 0⟩ KeyCode.Left 2 = some c2 ∧
      c2 = (if TileValue.is_empty
              (at2d [[1, 2], [3, 4]] (toroidalStep 2 KeyCode.Left ⟨0, 0⟩).j.toNat
                (toroidalStep 2 KeyCode.Left ⟨0, 0⟩).i.toNat) 2 = true
            then toroidalStep 2 KeyCode.Left (toroidalStep 2 KeyCode.Left ⟨0, 0⟩)
            else toroidalStep 2 KeyCode.Left ⟨0, 0⟩) ∧
      TileValue.is_empty (at2d [[1, 2], [3, 4]] c2.j.toNat c2.i.toNat) 2 = false :=
  get_next_selection_correct ⟨2, 4, [[1, 2], [3, 4]], false⟩ (by decide) (by decide)
    (by decide) ⟨0, 0⟩ (by decide) KeyCode.Left (by decide) 2 (by decide)

/-- Witness for C8: swapping cells `(0,0)` and `(1,1)` of the solved 2×2
grid. -/
theorem swap_tiles_exchanges_witness :
    at2d (Taquin.swap_tiles ⟨2, 4, [[1, 2], [3, 4]], false⟩ ⟨0, 0⟩ ⟨1, 1⟩).tiles 0 0 =
      at2d [[1, 2], [3, 4]] 1 1 ∧
    at2d (Taquin.swap_tiles ⟨2, 4, [[1, 2], [3, 4]], false⟩ ⟨0, 0⟩ ⟨1, 1⟩).tiles 1 1 =
      at2d [[1, 2], [3, 4]] 0 0 ∧
    (∀ j i, j < (2 : Int).toNat → i < (2 : Int).toNat →
      ¬(j = 0 ∧ i = 0) → ¬(j = 1 ∧ i = 1) →
      at2d (Taquin.swap_tiles ⟨2, 4, [[1, 2], [3, 4]], false⟩ ⟨0, 0⟩ ⟨1, 1⟩).tiles j i =
        at2d [[1, 2], [3, 4]] j i) ∧
    SentinelInv (Taquin.swap_tiles ⟨2, 4, [[1, 2], [3, 4]], false⟩ ⟨0, 0⟩ ⟨1, 1⟩) :=
  swap_tiles_exchanges_and_preserves_invariant ⟨2, 4, [[1, 2], [3, 4]], false⟩ (by decide)
    ⟨0, 0⟩ ⟨1, 1⟩ (by decide) (by decide) (by decide)
